import Mathlib

/-!
Verification development for the Ethr network measurement tool
(TCP traceroute client, `src/client/tcp/traceroute.go`, and the
measurement server, `src/server.go`).

Durations (`time.Duration`) are modelled as `ℤ` (int64 nanoseconds);
machine-integer overflow is modelled explicitly with `% 2^w` where the Go
code can wrap (`uint16` local ports, `uint32` index arithmetic in the
latency percentile computation, `int64`/`uint64` counter additions).
The `float64` arithmetic used for the p999/p9999 percentile indices is
modelled exactly: an unnormalised fraction type carries exact rational
values and `roundNE` performs IEEE-754 round-to-nearest, ties-to-even, at
53 significant bits, which is exactly binary64 rounding for the
normal-range magnitudes that occur here.
-/

namespace Ethr

/-- Two to the 63rd, the int64 sign bound. -/
def int64Half : ℤ := 9223372036854775808

/-- Two to the 64th. -/
def int64Mod : ℤ := 18446744073709551616

/-- Wrap-around of Go `int64` addition results: reduce into
`[-2^63, 2^63)`. -/
def wrap64 (x : ℤ) : ℤ := (x + int64Half) % int64Mod - int64Half

/-- Modelled from the spec: `payloads.HopData` (§3 of the spec), the
per-TTL aggregate of `weavelab.xyz/ethr/client/payloads`, whose Go source
is not part of this repository fragment.  Unsigned counters are modelled
as `ℕ`, `time.Duration` fields as `ℤ` nanoseconds.  A Go
`var hopData payloads.HopData` zero-initialises every field. -/
structure HopData where
  addr : String := ""
  name : String := ""
  fullName : String := ""
  sent : ℕ := 0
  rcvd : ℕ := 0
  lost : ℕ := 0
  last : ℤ := 0
  best : ℤ := 0
  worst : ℤ := 0
  total : ℤ := 0
deriving Repr, DecidableEq

/-- The zero value of `payloads.HopData` (Go zero-initialisation). -/
def HopData.zero : HopData := {}

/-- `calcHopData` (traceroute.go:183-194): merge one successful probe
result `(peerAddr, elapsed)` into a `HopData` aggregate.  Note the Go
source updates `Best` only when `Best > elapsed` and `Worst` only when
`Worst < elapsed`; `Total` accumulates with int64 wrap-around. -/
def calcHopData (hd : HopData) (peerAddr : String) (elapsed : ℤ) : HopData :=
  { hd with
    addr := peerAddr
    last := elapsed
    best := if hd.best > elapsed then elapsed else hd.best
    worst := if hd.worst < elapsed then elapsed else hd.worst
    total := wrap64 (hd.total + elapsed)
    rcvd := hd.rcvd + 1 }

/-- Environment of one `probeHop` call (traceroute.go:119-181): whether
`IcmpNewConn` succeeded, whether the TCP dial at the probe's TTL
succeeded, the peer address delivered by the concurrent ICMP receiver
(used only on dial error), and the measured elapsed time.  An outcome
models a probe that ran to completion. -/
structure ProbeOutcome where
  icmpConnOK : Bool := true
  dialOK : Bool := false
  icmpPeer : String := ""
  elapsed : ℤ := 0
deriving Repr, DecidableEq

/-- Errors returned by `probeHop`: ICMP listener creation failure, or
failure to complete the connection / receive a matching ICMP TTL
exceeded (`os.ErrNotExist`, the spec's HopUnreachable). -/
inductive ProbeErr where
  | connFail : ProbeErr
  | hopUnreachable : ProbeErr
deriving Repr, DecidableEq

/-- Result of one `probeHop` call: the updated `HopData` (the Go code
mutates it through a pointer), the returned error, and `isLast`. -/
structure ProbeResult where
  hd : HopData
  err : Option ProbeErr
  isLast : Bool
deriving Repr, DecidableEq

/-- The peer address determined by `probeHop` (traceroute.go:162-172):
the remote IP itself on dial success, otherwise the address reported by
the ICMP receiver goroutine. -/
def probePeerAddr (remoteIP : String) (o : ProbeOutcome) : String :=
  if o.dialOK then remoteIP else o.icmpPeer

/-- The failure test of `probeHop` (traceroute.go:175): no peer
matched, or the matched peer disagrees with a non-empty
`expectedPeer`. -/
def probeFail (expectedPeer peerAddr : String) : Bool :=
  peerAddr == "" || (expectedPeer != "" && peerAddr != expectedPeer)

/-- `probeHop` (traceroute.go:119-181) for a probe that ran to
completion.  After ICMP listener creation succeeds, `Sent` is
incremented unconditionally; on dial success the peer is the remote IP
and `isLast` is set; on dial error the peer comes from the ICMP
receiver.  If no peer matched (empty) or the matched peer disagrees with
a non-empty `expectedPeer` (the `hopIP` argument), `Lost` is incremented
and HopUnreachable is returned; otherwise the aggregate is updated via
`calcHopData`. -/
def probeHop (remoteIP : String) (expectedPeer : String) (o : ProbeOutcome)
    (hd : HopData) : ProbeResult :=
  if o.icmpConnOK = false then
    ⟨hd, some ProbeErr.connFail, false⟩
  else
    let hd1 := { hd with sent := hd.sent + 1 }
    if probeFail expectedPeer (probePeerAddr remoteIP o) then
      ⟨{ hd1 with lost := hd1.lost + 1 }, some ProbeErr.hopUnreachable, o.dialOK⟩
    else
      ⟨calcHopData hd1 (probePeerAddr remoteIP o) o.elapsed, none, o.dialOK⟩

/-- One iteration body of the `discoverHops` loop (traceroute.go:74-92):
probe TTL `i+1` with empty `expectedPeer` on a freshly zero-initialised
`HopData`; on probe success fill in the reverse-DNS names. -/
def discoverStep (remoteIP : String) (lookupName : String → String × String)
    (o : ProbeOutcome) : HopData × Bool :=
  let r := probeHop remoteIP "" o HopData.zero
  let hd := if r.err = none then
      { r.hd with name := (lookupName r.hd.addr).1,
                  fullName := (lookupName r.hd.addr).2 }
    else r.hd
  (hd, r.isLast)

/-- The `discoverHops` loop (traceroute.go:72-95), structurally recursive
on the number of remaining TTLs.  `acc` holds the hops gathered so far
(`hops[:i]`); on `isLast` the gathered prefix is returned with no error,
and on exhaustion the Go code returns `nil, os.ErrNotExist` — the empty
list together with the error flag. -/
def discoverLoop (remoteIP : String) (lookupName : String → String × String)
    (outs : ℕ → ProbeOutcome) : ℕ → ℕ → List HopData → List HopData × Bool
  | 0, _, _ => ([], true)
  | remaining + 1, i, acc =>
    let (hd, isLast) := discoverStep remoteIP lookupName (outs i)
    let acc1 := acc ++ [hd]
    if isLast then (acc1, false)
    else discoverLoop remoteIP lookupName outs remaining (i + 1) acc1

/-- `discoverHops` (traceroute.go:72-95): iterate TTL `1..maxHops`; the
probe outcomes are supplied by the environment `outs` (outcome of the
probe at loop index `i`, i.e. TTL `i+1`).  Returns the hop list and an
error flag (`true` models the `os.ErrNotExist` returned on
exhaustion). -/
def discoverHops (remoteIP : String) (lookupName : String → String × String)
    (maxHops : ℕ) (outs : ℕ → ProbeOutcome) : List HopData × Bool :=
  discoverLoop remoteIP lookupName outs maxHops 0 []

/-- Local port selection in `probeHop` (traceroute.go:126-130): start
from the configured local port, or 8888 when it is zero, then add the
hop number with Go `uint16` wrap-around. -/
def localPortNum (cfgLocalPort : ℕ) (hop : ℕ) : ℕ :=
  ((if cfgLocalPort ≠ 0 then cfgLocalPort else 8888) + hop % 65536) % 65536

/-- High byte of a 16-bit big-endian encoding (`binary.BigEndian.PutUint16`). -/
def beHi (v : ℕ) : ℕ := v / 256 % 256

/-- Low byte of a 16-bit big-endian encoding. -/
def beLo (v : ℕ) : ℕ := v % 256

/-- The 4-byte probe fingerprint built in `probeHop`
(traceroute.go:131-134): big-endian local port followed by big-endian
remote port. -/
def fingerprintBytes (localPort remotePort : ℕ) : List ℕ :=
  [beHi localPort, beLo localPort, beHi remotePort, beLo remotePort]

/-- The 16-bit big-endian encoding as a two-byte list (specification
form, compared against `fingerprintBytes`). -/
def bigEndian16 (v : ℕ) : List ℕ := [v / 256 % 256, v % 256]

/-- Go `bytes.Index`: first index at which `sep` occurs as a contiguous
sublist of `s`, or `-1` if none. -/
def bytesIndex (s sep : List ℕ) : ℤ :=
  if sep.isPrefixOf s then 0
  else
    match s with
    | [] => -1
    | _ :: t => let r := bytesIndex t sep; if r = -1 then -1 else r + 1

/-- The acceptance test of the concurrent ICMP receiver in `probeHop`
(traceroute.go:141-149): the message must be an ICMP TimeExceeded and
the fingerprint must occur in the quoted body at a strictly positive
`bytes.Index`. -/
def acceptICMP (isTimeExceeded : Bool) (body : List ℕ) (fp : List ℕ) : Bool :=
  isTimeExceeded && decide (bytesIndex body fp > 0)

/-- Two to the 64th as a natural, for `uint64` counter wrap-around. -/
def u64Mod : ℕ := 18446744073709551616

/-- The per-test state touched by the UDP packet handler: `lastAccess`
(a `time.Time`, modelled as an integer instant, zero at creation) and
the atomically updated `uint64` counters `pps` and `bw`
(`test.testResult`).  Newly created tests are zero-initialised. -/
structure EthrTest where
  lastAccess : ℤ := 0
  pps : ℕ := 0
  bw : ℕ := 0
deriving Repr, DecidableEq

/-- State seen by one UDP packet worker (server.go:266-330): the global
registry of tests keyed by remote host (association list; Go map values
are pointers into this registry, so mutating a looked-up test mutates
the registry entry) and the set of keys present in the worker-local
`tests` map, which aliases the registry entries. -/
structure UDPWorkerState where
  registry : List (String × EthrTest) := []
  workerKeys : List String := []
deriving Repr, DecidableEq

/-- `createOrGetTest(server, UDP, All)` as used by the UDP handler:
return the existing test for the key, or insert a zero-initialised one
and report `isNew = true`. -/
def createOrGetTest (reg : List (String × EthrTest)) (server : String) :
    List (String × EthrTest) × Bool :=
  match reg.lookup server with
  | some _ => (reg, false)
  | none => ((server, {}) :: reg, true)

/-- Update the registry entry for `server` in place (pointer mutation
through the worker-local map). -/
def updateTest (reg : List (String × EthrTest)) (server : String)
    (f : EthrTest → EthrTest) : List (String × EthrTest) :=
  reg.map (fun p => if p.1 = server then (p.1, f p.2) else p)

/-- One iteration of the datagram loop of `srvrRunUDPPacketHandler`
(server.go:298-329) for a datagram of `n` bytes from `server` at time
`now`.  Faithful to the Go source: inside `if !found` the statement
`test, isNew := createOrGetTest(...)` declares a NEW `test` variable
shadowing the outer one, so after the block the outer `test` is still
`nil` and the counter-update branch is skipped; only the `else` branch
(the "Unable to create test" debug print) runs for the first datagram
from a new remote. -/
def udpHandleDatagram (st : UDPWorkerState) (server : String) (n : ℕ)
    (now : ℤ) : UDPWorkerState :=
  if st.workerKeys.contains server then
    -- found: outer test is non-nil, counters are updated through it
    { st with registry := updateTest st.registry server (fun t =>
        { t with lastAccess := now,
                 pps := (t.pps + 1) % u64Mod,
                 bw := (t.bw + n) % u64Mod }) }
  else
    -- not found: the inner, shadowed test is created, stored in the
    -- worker map and used for the handshake; the outer test stays nil,
    -- hence no counter update happens for this datagram
    let (reg1, _isNew) := createOrGetTest st.registry server
    { st with registry := reg1, workerKeys := server :: st.workerKeys }

/-! ### Exact model of the float64 arithmetic used for p999/p9999

The Go expression `uint64(((float64(n)*99.9)/100)-1)` performs binary64
arithmetic.  Every intermediate value is an exact rational; binary64
rounding is round-to-nearest, ties-to-even, at 53 significant bits (all
magnitudes occurring here are in the normal range, so neither subnormal
rounding nor overflow can occur).  `Frac` carries exact rationals as
unnormalised `num/den` pairs with a positive denominator, so that the
whole computation reduces inside the kernel. -/

/-- An unnormalised fraction `num/den` with positive denominator. -/
structure Frac where
  num : ℤ
  den : ℤ
  pos : 0 < den

/-- The rational value of a fraction (used in specifications/proofs). -/
def Frac.val (x : Frac) : ℚ := (x.num : ℚ) / (x.den : ℚ)

/-- Multiplication by a natural number (`float64(n) * c`; `float64(n)`
is exact for the `uint32` counts occurring here). -/
def Frac.mulNat (n : ℕ) (x : Frac) : Frac :=
  ⟨(n : ℤ) * x.num, x.den, x.pos⟩

/-- Exact division by 100 (the `/100` operand is exact). -/
def Frac.div100 (x : Frac) : Frac :=
  ⟨x.num, x.den * 100, by have := x.pos; positivity⟩

/-- Exact subtraction of 1 (the `-1` operand is exact). -/
def Frac.sub1 (x : Frac) : Frac :=
  ⟨x.num - x.den, x.den, x.pos⟩

/-- Floor of a fraction (`den > 0`, so euclidean division is floor). -/
def Frac.floorQ (x : Frac) : ℤ := x.num / x.den

/-- Round a fraction to the nearest integer, ties to even
(`x.num / x.den` is the floor since the denominator is positive). -/
def nearestEven (x : Frac) : ℤ :=
  if 2 * (x.num - x.num / x.den * x.den) < x.den then x.num / x.den
  else if x.den < 2 * (x.num - x.num / x.den * x.den) then x.num / x.den + 1
  else if x.num / x.den % 2 = 0 then x.num / x.den else x.num / x.den + 1

/-- Fuelled binary exponent search for `num/den ≥ 1`: the unique `L`
with `2^L ≤ num/den < 2^(L+1)`, found by repeatedly doubling the
denominator. -/
def expUp : ℕ → ℤ → ℤ → ℕ
  | 0, _, _ => 0
  | fuel + 1, num, den =>
    if num < 2 * den then 0
    else expUp fuel num (2 * den) + 1

/-- Fuelled binary exponent search for `0 < num/den < 1`: the least
`k ≥ 1` with `2^k * num/den ≥ 1`, found by repeatedly doubling the
numerator. -/
def expDown : ℕ → ℤ → ℤ → ℕ
  | 0, _, _ => 1
  | fuel + 1, num, den =>
    if den ≤ 2 * num then 1
    else expDown fuel (2 * num) den + 1

/-- The binary exponent `⌊log₂ x⌋` of a positive fraction (correct for
`2^(-200) < x < 2^201`, far beyond the magnitudes occurring here). -/
def qExp (x : Frac) : ℤ :=
  if x.den ≤ x.num then (expUp 200 x.num x.den : ℤ)
  else -(expDown 200 x.num x.den : ℤ)

/-- Round `x` to an integer multiple of `2^(-K)`: the value scaled by
`2^K` is rounded to the nearest integer (ties to even) and scaled
back. -/
def roundAt (x : Frac) (K : ℕ) : Frac :=
  ⟨nearestEven ⟨x.num * 2 ^ K, x.den, x.pos⟩, 2 ^ K, by positivity⟩

/-- IEEE-754 binary64 rounding of an exact positive rational:
round-to-nearest, ties-to-even, at 53 significant bits.  The significand
is scaled into `[2^52, 2^53)`, rounded to an integer, and scaled back
(for binary exponents above 52 the value is rounded to a multiple of
`2^(e-52)` instead; that branch is never reached at the magnitudes
occurring in this development). -/
def roundNE (x : Frac) : Frac :=
  if x.num ≤ 0 then ⟨0, 1, one_pos⟩
  else if 52 < qExp x then
    ⟨nearestEven ⟨x.num, x.den * 2 ^ (qExp x - 52).toNat, by
        have := x.pos; positivity⟩ * 2 ^ (qExp x - 52).toNat, 1, one_pos⟩
  else roundAt x (52 - qExp x).toNat

/-- The binary64 value of the Go constant `99.9`. -/
def c999 : Frac := roundNE ⟨999, 10, by norm_num⟩

/-- The binary64 value of the Go constant `99.99`. -/
def c9999 : Frac := roundNE ⟨9999, 100, by norm_num⟩

/-- Stage 1 of `uint64(((float64(n)*c)/100)-1)`: the rounded product
`float64(n) * c`. -/
def fl1 (c : Frac) (n : ℕ) : Frac := roundNE (Frac.mulNat n c)

/-- Stage 2: the rounded quotient `(float64(n)*c) / 100`. -/
def fl2 (c : Frac) (n : ℕ) : Frac := roundNE (Frac.div100 (fl1 c n))

/-- Stage 3: the rounded difference `((float64(n)*c)/100) - 1`. -/
def fl3 (c : Frac) (n : ℕ) : Frac := roundNE (Frac.sub1 (fl2 c n))

/-- The float-derived percentile index
`uint64(((float64(n)*c)/100)-1)` of server.go:234-235: each binary
operation rounds, and the final conversion truncates (equal to the floor
for the non-negative values arising for `n ≥ 2`). -/
def floatIdx (c : Frac) (n : ℕ) : ℕ := (Frac.floorQ (fl3 c n)).toNat

/-- The p999 index (server.go:234) as a function of `rttCountFixed`. -/
def idxF999 (n : ℕ) : ℕ := floatIdx c999 n

/-- The p9999 index (server.go:235) as a function of `rttCountFixed`. -/
def idxF9999 (n : ℕ) : ℕ := floatIdx c9999 n

/-! ### The latency percentile computation (server.go:184-241) -/

/-- Two to the 32nd, the `uint32` modulus. -/
def u32Mod : ℕ := 4294967296

/-- Go `uint32` subtraction of 1 (wraps at zero). -/
def u32sub1 (x : ℕ) : ℕ := (x + 4294967295) % u32Mod

/-- The integer percentile index `((n*p)/100)-1` computed in `uint32`
arithmetic (server.go:230-233): the product wraps at `2^32` and the
subtraction wraps at zero. -/
def idxInt (n p : ℕ) : ℕ := u32sub1 (n * p % u32Mod / 100)

/-- `rttCountFixed` (server.go:222-225): inflate a count of 1 to 2 so
the percentile indices cannot underflow. -/
def nFixed (rtt : ℕ) : ℕ := if rtt = 1 then 2 else rtt

/-- The latency figures emitted for one batch
(`ui.emitLatencyResults`). -/
structure LatencyNumbers where
  avg : ℤ
  min : ℤ
  max : ℤ
  p50 : ℤ
  p90 : ℤ
  p95 : ℤ
  p99 : ℤ
  p999 : ℤ
  p9999 : ℤ
deriving Repr, DecidableEq

/-- The per-batch computation of `srvrRunTCPLatencyTest`
(server.go:209-239) on the gathered `latencyNumbers`: int64 sum with
wrap-around, truncating int64 division by `rttCount` for the average, a
stable ascending sort (`sort.SliceStable` with `<`, modelled by the
stable `List.insertionSort` with `≤`, which produces the same list), and
the percentile reads.  Out-of-range reads (a runtime panic in Go) are
modelled by `List.getD` with default 0. -/
def srvrRunTCPLatencyTest (rttCount : ℕ) (samples : List ℤ) : LatencyNumbers :=
  let sum := samples.foldl (fun a d => wrap64 (a + d)) 0
  let elapsed := Int.tdiv sum (rttCount : ℤ)
  let sorted := List.insertionSort (· ≤ ·) samples
  let nF := nFixed rttCount
  { avg := elapsed
    min := sorted.getD 0 0
    max := sorted.getD (u32sub1 rttCount) 0
    p50 := sorted.getD (idxInt nF 50) 0
    p90 := sorted.getD (idxInt nF 90) 0
    p95 := sorted.getD (idxInt nF 95) 0
    p99 := sorted.getD (idxInt nF 99) 0
    p999 := sorted.getD (idxF999 nF) 0
    p9999 := sorted.getD (idxF9999 nF) 0 }

/-- All sample-array indices used by `srvrRunTCPLatencyTest` for a batch
of `rtt` samples lie within `[0, rtt-1]`. -/
def latencyIndexOK (rtt : ℕ) : Prop :=
  u32sub1 rtt ≤ rtt - 1 ∧
  idxInt (nFixed rtt) 50 ≤ rtt - 1 ∧
  idxInt (nFixed rtt) 90 ≤ rtt - 1 ∧
  idxInt (nFixed rtt) 95 ≤ rtt - 1 ∧
  idxInt (nFixed rtt) 99 ≤ rtt - 1 ∧
  idxF999 (nFixed rtt) ≤ rtt - 1 ∧
  idxF9999 (nFixed rtt) ≤ rtt - 1

/-- The percentile chain `min ≤ p50 ≤ p90 ≤ p95 ≤ p99 ≤ p999 ≤ p9999 ≤ max`
for one batch. -/
def latencyChain (rtt : ℕ) (samples : List ℤ) : Prop :=
  (srvrRunTCPLatencyTest rtt samples).min ≤ (srvrRunTCPLatencyTest rtt samples).p50 ∧
  (srvrRunTCPLatencyTest rtt samples).p50 ≤ (srvrRunTCPLatencyTest rtt samples).p90 ∧
  (srvrRunTCPLatencyTest rtt samples).p90 ≤ (srvrRunTCPLatencyTest rtt samples).p95 ∧
  (srvrRunTCPLatencyTest rtt samples).p95 ≤ (srvrRunTCPLatencyTest rtt samples).p99 ∧
  (srvrRunTCPLatencyTest rtt samples).p99 ≤ (srvrRunTCPLatencyTest rtt samples).p999 ∧
  (srvrRunTCPLatencyTest rtt samples).p999 ≤ (srvrRunTCPLatencyTest rtt samples).p9999 ∧
  (srvrRunTCPLatencyTest rtt samples).p9999 ≤ (srvrRunTCPLatencyTest rtt samples).max

/-- The unit in the last place of the 53-bit significand:
`eps = 2^(-53)`, the relative rounding error bound of binary64. -/
def eps : ℚ := 1 / 9007199254740992

/-- An all-intermediate-hops environment: the ICMP listener always
opens, the TCP dial never succeeds, and each probe's ICMP receiver
reports the router `10.0.0.1` after 5 ns. -/
def c2Outs : ℕ → ProbeOutcome :=
  fun _ => { icmpConnOK := true, dialOK := false, icmpPeer := "10.0.0.1", elapsed := 5 }

/-- The permutation-invariant aggregate of a `HopData`:
`(best, worst, total, rcvd)`. -/
def hopAgg (hd : HopData) : ℤ × ℤ × ℤ × ℕ := (hd.best, hd.worst, hd.total, hd.rcvd)

/-- The action of `calcHopData` on the aggregate alone. -/
def aggStep (s : ℤ × ℤ × ℤ × ℕ) (pe : String × ℤ) : ℤ × ℤ × ℤ × ℕ :=
  (if s.1 > pe.2 then pe.2 else s.1,
   if s.2.1 < pe.2 then pe.2 else s.2.1,
   wrap64 (s.2.2.1 + pe.2),
   s.2.2.2 + 1)

/-- Folding `calcHopData` over a list of (peer, elapsed) probe
results. -/
def calcFold (init : HopData) (l : List (String × ℤ)) : HopData :=
  l.foldl (fun h pe => calcHopData h pe.1 pe.2) init

/-! ### Helper lemmas -/

/-- `probeHop` reports `isLast` exactly when the ICMP listener was
created and the TCP dial succeeded. -/
theorem probeHop_isLast (remoteIP expectedPeer : String) (o : ProbeOutcome)
    (hd : HopData) :
    (probeHop remoteIP expectedPeer o hd).isLast = (o.icmpConnOK && o.dialOK) := by
  unfold probeHop
  rcases h : o.icmpConnOK with _ | _
  · simp [h]
  · simp only [h, Bool.true_eq_false, if_false, Bool.true_and]
    rcases hf : probeFail expectedPeer (probePeerAddr remoteIP o) with _ | _ <;>
      simp [hf]

/-- If every probe fails to dial, the discovery loop exhausts its fuel
and returns the empty list with the error flag. -/
theorem discoverLoop_exhaust (remoteIP : String)
    (lookupName : String → String × String) (outs : ℕ → ProbeOutcome)
    (hdial : ∀ j, (outs j).dialOK = false) :
    ∀ (remaining i : ℕ) (acc : List HopData),
      discoverLoop remoteIP lookupName outs remaining i acc = ([], true) := by
  intro remaining
  induction remaining with
  | zero => intro i acc; rfl
  | succ r ih =>
    intro i acc
    unfold discoverLoop discoverStep
    have hlast : (probeHop remoteIP "" (outs i) HopData.zero).isLast = false := by
      rw [probeHop_isLast, hdial i, Bool.and_false]
    simp only [hlast, Bool.false_eq_true, if_false, ih]

/-! ### C1 -/

/-- Claim C1 (code bug): after a UDP packet worker processes the first
datagram from a new remote host (here 100 bytes from `203.0.113.7` at
time 5), the test created for that remote still has `lastAccess = 0`,
`pps = 0` and `bw = 0`: the Go `:=` inside `if !found` shadows the outer
`test` variable, so the per-datagram counter update is skipped for the
datagram that triggers test creation, contradicting the claim that
every datagram sets `lastAccess = now` and increments `pps` and `bw`. -/
theorem c1_first_datagram_skips_counters :
    (udpHandleDatagram {} "203.0.113.7" 100 5).registry.lookup "203.0.113.7" =
      some { lastAccess := 0, pps := 0, bw := 0 } ∧
    ¬ (udpHandleDatagram {} "203.0.113.7" 100 5).registry.lookup "203.0.113.7" =
      some { lastAccess := 5, pps := 1, bw := 100 } := by
  constructor <;> decide

/-! ### C2 -/

/-- Claim C2 counterexample: with `maxHops = 3` and every probe
answered by an intermediate router (so the destination is never
reached), `discoverHops` returns the EMPTY hop list together with the
error — not the three gathered hops — because the Go source returns
`nil, os.ErrNotExist` on exhaustion.  (That hops were indeed gathered is
witnessed by the per-iteration step: each probe produced a hop entry
with `addr = "10.0.0.1"` and `rcvd = 1`.) -/
theorem c2_counterexample :
    discoverHops "198.51.100.9" (fun a => (a, a)) 3 c2Outs = ([], true) ∧
    (discoverStep "198.51.100.9" (fun a => (a, a)) (c2Outs 0)).1.addr = "10.0.0.1" ∧
    (discoverStep "198.51.100.9" (fun a => (a, a)) (c2Outs 0)).1.rcvd = 1 := by
  refine ⟨?_, rfl, rfl⟩
  rfl

/-- Claim C2 as amended: when hop discovery exhausts TTL `1..maxHops`
without the destination ever being reached (no dial succeeds),
`discoverHops` returns the error (DestinationUnresponsive /
`os.ErrNotExist`) together with the EMPTY hop list: the hops gathered
during the loop are discarded. -/
theorem c2_exhaustion_returns_empty (remoteIP : String)
    (lookupName : String → String × String) (maxHops : ℕ)
    (outs : ℕ → ProbeOutcome) (hdial : ∀ j, (outs j).dialOK = false) :
    discoverHops remoteIP lookupName maxHops outs = ([], true) := by
  unfold discoverHops
  exact discoverLoop_exhaust remoteIP lookupName outs hdial maxHops 0 []

/-- Witness for the amended C2 at a concrete input. -/
theorem c2_exhaustion_returns_empty_witness :
    discoverHops "198.51.100.9" (fun a => (a, a)) 2
      (fun _ => { icmpConnOK := true, dialOK := false, icmpPeer := "", elapsed := 1 })
      = ([], true) :=
  c2_exhaustion_returns_empty _ _ 2 _ (fun _ => rfl)

/-! ### C3 -/

/-- Claim C3 (code bug): on a freshly zero-initialised `HopData`, a
first successful probe with elapsed 5 ns leaves `best = 0`, not 5: the
Go guard `if hopData.Best > elapsed` never fires because the zero
initialisation of `Best` is NOT treated as +infinity, so the first
observation does not win (and `best` can never equal the minimum of the
observed elapsed times, which is 5 here). -/
theorem c3_best_stays_zero :
    (calcHopData HopData.zero "10.0.0.1" 5).best = 0 ∧
    (calcHopData HopData.zero "10.0.0.1" 5).last = 5 ∧
    ¬ (calcHopData HopData.zero "10.0.0.1" 5).best = 5 := by
  refine ⟨rfl, rfl, ?_⟩
  decide

/-! ### C4 -/

/-- Claim C4: every completed `probeHop` call that gets past ICMP
listener creation increments `sent` by exactly one and then exactly one
of `rcvd` (successful match, via `calcHopData`, no error) or `lost`
(no/wrong peer, HopUnreachable error); consequently
`rcvd + lost ≤ sent` is preserved, with equality preserved as well. -/
theorem c4_probe_counter_invariant (remoteIP expectedPeer : String)
    (o : ProbeOutcome) (hd : HopData) (hconn : o.icmpConnOK = true) :
    (probeHop remoteIP expectedPeer o hd).hd.sent = hd.sent + 1 ∧
    (((probeHop remoteIP expectedPeer o hd).hd.rcvd = hd.rcvd + 1 ∧
      (probeHop remoteIP expectedPeer o hd).hd.lost = hd.lost ∧
      (probeHop remoteIP expectedPeer o hd).err = none) ∨
     ((probeHop remoteIP expectedPeer o hd).hd.lost = hd.lost + 1 ∧
      (probeHop remoteIP expectedPeer o hd).hd.rcvd = hd.rcvd ∧
      (probeHop remoteIP expectedPeer o hd).err = some ProbeErr.hopUnreachable)) ∧
    (hd.rcvd + hd.lost ≤ hd.sent →
      (probeHop remoteIP expectedPeer o hd).hd.rcvd +
        (probeHop remoteIP expectedPeer o hd).hd.lost ≤
        (probeHop remoteIP expectedPeer o hd).hd.sent) ∧
    (hd.rcvd + hd.lost = hd.sent →
      (probeHop remoteIP expectedPeer o hd).hd.rcvd +
        (probeHop remoteIP expectedPeer o hd).hd.lost =
        (probeHop remoteIP expectedPeer o hd).hd.sent) := by
  unfold probeHop
  simp only [hconn, Bool.true_eq_false, if_false]
  rcases hf : probeFail expectedPeer (probePeerAddr remoteIP o) with _ | _
  · rw [if_neg Bool.false_ne_true]
    refine ⟨rfl, Or.inl ⟨rfl, rfl, rfl⟩, ?_, ?_⟩ <;> intro h
    · show hd.rcvd + 1 + hd.lost ≤ hd.sent + 1
      omega
    · show hd.rcvd + 1 + hd.lost = hd.sent + 1
      omega
  · rw [if_pos rfl]
    refine ⟨rfl, Or.inr ⟨rfl, rfl, rfl⟩, ?_, ?_⟩ <;> intro h
    · show hd.rcvd + (hd.lost + 1) ≤ hd.sent + 1
      omega
    · show hd.rcvd + (hd.lost + 1) = hd.sent + 1
      omega

/-- Witness for C4 at a concrete input (a successful last-hop probe). -/
theorem c4_probe_counter_invariant_witness :
    (probeHop "203.0.113.7" ""
        { icmpConnOK := true, dialOK := true, icmpPeer := "", elapsed := 3 }
        HopData.zero).hd.sent = HopData.zero.sent + 1 := by
  exact (c4_probe_counter_invariant "203.0.113.7" ""
    { icmpConnOK := true, dialOK := true, icmpPeer := "", elapsed := 3 }
    HopData.zero rfl).1

/-! ### C5 -/

/-- Claim C5: for a latency batch with `rttCount = 1`, the indexing
count is inflated to 2 and every reported figure — the percentiles
p50..p9999 as well as min, max and avg — equals the single observed
sample (any int64 duration). -/
theorem c5_single_sample (d : ℤ)
    (hlo : -9223372036854775808 ≤ d) (hhi : d < 9223372036854775808) :
    nFixed 1 = 2 ∧
    srvrRunTCPLatencyTest 1 [d] =
      { avg := d, min := d, max := d, p50 := d, p90 := d, p95 := d,
        p99 := d, p999 := d, p9999 := d } := by
  refine ⟨rfl, ?_⟩
  have hsum : List.foldl (fun a b => wrap64 (a + b)) 0 [d] = d := by
    simp only [List.foldl]
    unfold wrap64 int64Half int64Mod
    omega
  have hsort : List.insertionSort (· ≤ ·) [d] = [d] := by
    simp [List.insertionSort, List.orderedInsert]
  have h50 : idxInt (nFixed 1) 50 = 0 := by decide
  have h90 : idxInt (nFixed 1) 90 = 0 := by decide
  have h95 : idxInt (nFixed 1) 95 = 0 := by decide
  have h99 : idxInt (nFixed 1) 99 = 0 := by decide
  have h999 : idxF999 (nFixed 1) = 0 := by decide
  have h9999 : idxF9999 (nFixed 1) = 0 := by decide
  have hmax : u32sub1 1 = 0 := by decide
  simp only [srvrRunTCPLatencyTest, hsum, hsort, h50, h90, h95, h99, h999,
    h9999, hmax, Int.tdiv_one, Nat.cast_one, List.getD]
  rfl

/-- Witness for C5 at the concrete sample 7 ns. -/
theorem c5_single_sample_witness :
    nFixed 1 = 2 ∧
    srvrRunTCPLatencyTest 1 [7] =
      { avg := 7, min := 7, max := 7, p50 := 7, p90 := 7, p95 := 7,
        p99 := 7, p999 := 7, p9999 := 7 } :=
  c5_single_sample 7 (by norm_num) (by norm_num)

/-! ### C7 -/

/-- Claim C7: for the latency batch `rttCount = 5`,
`samples = [9, 1, 5, 3, 7]` ms (nanosecond values shown), the
computation yields min = 1 ms, max = 9 ms, avg = 5 ms, p50 = 3 ms
(sorted index `(5*50/100)-1 = 1`), and p90 = p95 = p99 = p999 = 7 ms
(sorted index 3, the float-derived p999 index truncating to 3 as
well). -/
theorem c7_concrete_batch :
    srvrRunTCPLatencyTest 5 [9000000, 1000000, 5000000, 3000000, 7000000] =
      { avg := 5000000, min := 1000000, max := 9000000, p50 := 3000000,
        p90 := 7000000, p95 := 7000000, p99 := 7000000, p999 := 7000000,
        p9999 := 7000000 } ∧
    idxInt 5 50 = 1 ∧ idxInt 5 90 = 3 ∧ idxInt 5 95 = 3 ∧ idxInt 5 99 = 3 ∧
    idxF999 5 = 3 := by
  decide

/-! ### C8 -/

theorem hopAgg_calc (hd : HopData) (p : String) (e : ℤ) :
    hopAgg (calcHopData hd p e) = aggStep (hopAgg hd) (p, e) := rfl

theorem hopAgg_calcFold (l : List (String × ℤ)) :
    ∀ init : HopData, hopAgg (calcFold init l) = l.foldl aggStep (hopAgg init) := by
  induction l with
  | nil => intro init; rfl
  | cons a t ih =>
    intro init
    show hopAgg (calcFold (calcHopData init a.1 a.2) t) =
      List.foldl aggStep (aggStep (hopAgg init) (a.1, a.2)) t
    rw [ih (calcHopData init a.1 a.2), hopAgg_calc]

theorem wrap64_add_left (x y : ℤ) : wrap64 (wrap64 x + y) = wrap64 (x + y) := by
  unfold wrap64
  have h1 : (x + int64Half) % int64Mod - int64Half + y + int64Half
      = (x + int64Half) % int64Mod + y := by ring
  rw [h1, Int.emod_add_emod]
  have h2 : x + int64Half + y = x + y + int64Half := by ring
  rw [h2]

theorem ifMin_eq (u v : ℤ) : (if u > v then v else u) = min u v := by
  rcases le_or_lt u v with h | h
  · rw [if_neg (not_lt.mpr h), min_eq_left h]
  · rw [if_pos h, min_eq_right (le_of_lt h)]

theorem ifMax_eq (u v : ℤ) : (if u < v then v else u) = max u v := by
  rcases le_or_lt v u with h | h
  · rw [if_neg (not_lt.mpr h), max_eq_left h]
  · rw [if_pos h, max_eq_right (le_of_lt h)]

theorem aggStep_rightComm (s : ℤ × ℤ × ℤ × ℕ) (a b : String × ℤ) :
    aggStep (aggStep s a) b = aggStep (aggStep s b) a := by
  unfold aggStep
  refine Prod.ext ?_ (Prod.ext ?_ (Prod.ext ?_ ?_)) <;> simp only
  · rw [ifMin_eq, ifMin_eq, ifMin_eq, ifMin_eq, min_right_comm]
  · rw [ifMax_eq, ifMax_eq, ifMax_eq, ifMax_eq, sup_right_comm]
  · rw [wrap64_add_left, wrap64_add_left]
    have h : s.2.2.1 + a.2 + b.2 = s.2.2.1 + b.2 + a.2 := by ring
    rw [h]

/-- Claim C8: folding `calcHopData` over any finite multiset of probe
results from a common initial `HopData` yields the same `best`, `worst`,
`total` and `rcvd` for every ordering of the results. -/
theorem c8_calcFold_perm_invariant (l1 l2 : List (String × ℤ))
    (init : HopData) (hperm : l1.Perm l2) :
    (calcFold init l1).best = (calcFold init l2).best ∧
    (calcFold init l1).worst = (calcFold init l2).worst ∧
    (calcFold init l1).total = (calcFold init l2).total ∧
    (calcFold init l1).rcvd = (calcFold init l2).rcvd := by
  haveI : RightCommutative aggStep := ⟨fun s a b => aggStep_rightComm s a b⟩
  have h : hopAgg (calcFold init l1) = hopAgg (calcFold init l2) := by
    rw [hopAgg_calcFold, hopAgg_calcFold]
    exact hperm.foldl_eq (hopAgg init)
  exact ⟨congrArg (fun t => t.1) h, congrArg (fun t => t.2.1) h,
    congrArg (fun t => t.2.2.1) h, congrArg (fun t => t.2.2.2) h⟩

/-- Witness for C8 on a two-element multiset in both orders. -/
theorem c8_calcFold_perm_invariant_witness :
    (calcFold HopData.zero [("10.0.0.1", 7), ("10.0.0.2", 3)]).best =
      (calcFold HopData.zero [("10.0.0.2", 3), ("10.0.0.1", 7)]).best ∧
    (calcFold HopData.zero [("10.0.0.1", 7), ("10.0.0.2", 3)]).worst =
      (calcFold HopData.zero [("10.0.0.2", 3), ("10.0.0.1", 7)]).worst ∧
    (calcFold HopData.zero [("10.0.0.1", 7), ("10.0.0.2", 3)]).total =
      (calcFold HopData.zero [("10.0.0.2", 3), ("10.0.0.1", 7)]).total ∧
    (calcFold HopData.zero [("10.0.0.1", 7), ("10.0.0.2", 3)]).rcvd =
      (calcFold HopData.zero [("10.0.0.2", 3), ("10.0.0.1", 7)]).rcvd :=
  c8_calcFold_perm_invariant _ _ HopData.zero
    (List.Perm.swap ("10.0.0.2", 3) ("10.0.0.1", 7) [])

/-! ### C9 -/

theorem bytesIndex_ge_neg_one (s sep : List ℕ) : -1 ≤ bytesIndex s sep := by
  induction s with
  | nil =>
    unfold bytesIndex
    split <;> norm_num
  | cons h t ih =>
    unfold bytesIndex
    split
    · norm_num
    · simp only
      split
      · norm_num
      · omega

theorem isPrefixOf_take (sep : List ℕ) :
    ∀ s : List ℕ, sep.isPrefixOf s = true → s.take sep.length = sep := by
  induction sep with
  | nil => intro s _; rfl
  | cons a as ih =>
    intro s hp
    cases s with
    | nil => simp [List.isPrefixOf] at hp
    | cons b bs =>
      simp only [List.isPrefixOf, Bool.and_eq_true, beq_iff_eq] at hp
      simp only [List.length_cons, List.take_succ_cons, hp.1, ih bs hp.2]

theorem bytesIndex_occurrence (sep : List ℕ) :
    ∀ s : List ℕ, 0 ≤ bytesIndex s sep →
      (s.drop (bytesIndex s sep).toNat).take sep.length = sep := by
  intro s
  induction s with
  | nil =>
    intro h0
    unfold bytesIndex at h0 ⊢
    by_cases hp : sep.isPrefixOf [] = true
    · rw [if_pos hp] at h0 ⊢
      simpa using isPrefixOf_take sep [] hp
    · rw [if_neg hp] at h0
      norm_num at h0
  | cons h t ih =>
    intro h0
    unfold bytesIndex at h0 ⊢
    by_cases hp : sep.isPrefixOf (h :: t) = true
    · rw [if_pos hp] at h0 ⊢
      simpa using isPrefixOf_take sep (h :: t) hp
    · rw [if_neg hp] at h0 ⊢
      simp only at h0 ⊢
      by_cases hr : bytesIndex t sep = -1
      · rw [if_pos hr] at h0
        norm_num at h0
      · rw [if_neg hr] at h0 ⊢
        have hge : -1 ≤ bytesIndex t sep := bytesIndex_ge_neg_one t sep
        have hge0 : 0 ≤ bytesIndex t sep := by omega
        have htn : (bytesIndex t sep + 1).toNat = (bytesIndex t sep).toNat + 1 := by
          omega
        rw [htn]
        simpa using ih hge0

/-- Claim C9: the probe's local port is the configured local port (8888
when unset) plus the hop number modulo `2^16`; the fingerprint is the
big-endian local port followed by the big-endian remote port; and the
ICMP receiver accepts a message only if it is a TimeExceeded whose
quoted body contains that 4-byte fingerprint at an index strictly
greater than 0. -/
theorem c9_fingerprint_accept (cfg hop rport : ℕ) (isTE : Bool) (body : List ℕ) :
    localPortNum cfg hop = ((if cfg ≠ 0 then cfg else 8888) + hop) % 65536 ∧
    fingerprintBytes (localPortNum cfg hop) rport =
      bigEndian16 (localPortNum cfg hop) ++ bigEndian16 rport ∧
    (acceptICMP isTE body (fingerprintBytes (localPortNum cfg hop) rport) = true →
      isTE = true ∧ ∃ i : ℕ, 0 < i ∧
        (body.drop i).take 4 = fingerprintBytes (localPortNum cfg hop) rport) := by
  refine ⟨?_, rfl, ?_⟩
  · unfold localPortNum
    generalize (if cfg ≠ 0 then cfg else 8888) = b
    omega
  · intro hacc
    unfold acceptICMP at hacc
    rw [Bool.and_eq_true] at hacc
    refine ⟨hacc.1, ?_⟩
    have hpos : 0 < bytesIndex body (fingerprintBytes (localPortNum cfg hop) rport) := by
      have := hacc.2
      simpa using of_decide_eq_true this
    refine ⟨(bytesIndex body (fingerprintBytes (localPortNum cfg hop) rport)).toNat,
      by omega, ?_⟩
    have hocc := bytesIndex_occurrence (fingerprintBytes (localPortNum cfg hop) rport)
      body (le_of_lt hpos)
    simpa using hocc

/-- Witness for C9: a TimeExceeded body carrying the fingerprint of the
TTL-1 probe (local port 8889) towards remote port 8888 at index 1. -/
theorem c9_fingerprint_accept_witness :
    localPortNum 0 1 = ((if (0:ℕ) ≠ 0 then 0 else 8888) + 1) % 65536 ∧
    (true = true ∧ ∃ i : ℕ, 0 < i ∧
      (([20, 34, 185, 34, 184, 9] : List ℕ).drop i).take 4 =
        fingerprintBytes (localPortNum 0 1) 8888) := by
  have h := c9_fingerprint_accept 0 1 8888 true [20, 34, 185, 34, 184, 9]
  exact ⟨h.1, h.2.2 (by decide)⟩

/-! ### Exact rounding: value lemmas -/

theorem Frac.denQ_pos (x : Frac) : (0:ℚ) < (x.den : ℚ) := by
  exact_mod_cast x.pos

theorem Frac.val_pos_of_num_pos (x : Frac) (h : 0 < x.num) : 0 < x.val := by
  unfold Frac.val
  exact div_pos (by exact_mod_cast h) x.denQ_pos

theorem Frac.num_pos_of_val_pos (x : Frac) (h : 0 < x.val) : 0 < x.num := by
  by_contra hn
  push_neg at hn
  have : x.val ≤ 0 := by
    unfold Frac.val
    apply div_nonpos_of_nonpos_of_nonneg (by exact_mod_cast hn) (le_of_lt x.denQ_pos)
  linarith

theorem Frac.le_val (x : Frac) (a b : ℤ) (hb : (0:ℤ) < b)
    (h : a * x.den ≤ x.num * b) : (a:ℚ) / (b:ℚ) ≤ x.val := by
  unfold Frac.val
  rw [div_le_div_iff (by exact_mod_cast hb) x.denQ_pos]
  exact_mod_cast h

theorem Frac.val_le (x : Frac) (a b : ℤ) (hb : (0:ℤ) < b)
    (h : x.num * b ≤ a * x.den) : x.val ≤ (a:ℚ) / (b:ℚ) := by
  unfold Frac.val
  rw [div_le_div_iff x.denQ_pos (by exact_mod_cast hb)]
  exact_mod_cast h

theorem Frac.val_mulNat (n : ℕ) (x : Frac) :
    (Frac.mulNat n x).val = (n : ℚ) * x.val := by
  unfold Frac.val Frac.mulNat
  push_cast
  ring

theorem Frac.val_div100 (x : Frac) : (Frac.div100 x).val = x.val / 100 := by
  unfold Frac.val Frac.div100
  push_cast
  rw [div_div]

theorem Frac.val_sub1 (x : Frac) : (Frac.sub1 x).val = x.val - 1 := by
  unfold Frac.val Frac.sub1
  push_cast
  rw [sub_div, div_self (ne_of_gt x.denQ_pos)]

theorem Frac.floorQ_eq (x : Frac) : x.floorQ = ⌊x.val⌋ := by
  have hb := x.pos
  have hmod := Int.ediv_add_emod x.num x.den
  have h0 : 0 ≤ x.num % x.den := Int.emod_nonneg _ (ne_of_gt hb)
  have h1 : x.num % x.den < x.den := Int.emod_lt_of_pos _ hb
  symm
  rw [Int.floor_eq_iff]
  constructor
  · have hle : x.floorQ * x.den ≤ x.num * 1 := by
      unfold Frac.floorQ
      nlinarith [hmod, h0]
    have := Frac.le_val x x.floorQ 1 one_pos hle
    simpa using this
  · show x.val < x.floorQ + 1
    have hlt : x.num * 1 < (x.floorQ + 1) * x.den := by
      unfold Frac.floorQ
      nlinarith [hmod, h1]
    have := Frac.val_le x _ 1 one_pos (le_of_lt hlt)
    have hstrict : x.val < ((x.floorQ + 1 : ℤ) : ℚ) / (1:ℚ) := by
      unfold Frac.val
      rw [div_lt_div_iff x.denQ_pos (by norm_num : (0:ℚ) < (1:ℚ))]
      exact_mod_cast hlt
    push_cast at hstrict ⊢
    linarith

theorem nearestEven_dist (x : Frac) : |((nearestEven x : ℤ) : ℚ) - x.val| ≤ 1/2 := by
  have hden : (0:ℤ) < x.den := x.pos
  have hdenQ : (0:ℚ) < (x.den : ℚ) := x.denQ_pos
  set f : ℤ := x.num / x.den with hf
  set r : ℤ := x.num - x.num / x.den * x.den with hr
  have hr_eq : r = x.num % x.den := by
    rw [hr, Int.emod_def]
    ring
  have hr0 : 0 ≤ r := by rw [hr_eq]; exact Int.emod_nonneg _ (ne_of_gt hden)
  have hr1 : r < x.den := by rw [hr_eq]; exact Int.emod_lt_of_pos _ hden
  have hnum : x.num = f * x.den + r := by rw [hr, hf]; ring
  have hval : x.val = (f : ℚ) + (r : ℚ) / (x.den : ℚ) := by
    unfold Frac.val
    rw [hnum]
    push_cast
    rw [add_div, mul_div_assoc, div_self (ne_of_gt hdenQ), mul_one]
  unfold nearestEven
  rw [← hr, ← hf, hval]
  have hrQ0 : (0:ℚ) ≤ (r:ℚ) := by exact_mod_cast hr0
  have hrQ1 : (r:ℚ) < (x.den:ℚ) := by exact_mod_cast hr1
  have hdiv0 : (0:ℚ) ≤ (r:ℚ) / (x.den:ℚ) := div_nonneg hrQ0 (le_of_lt hdenQ)
  have hdiv1 : (r:ℚ) / (x.den:ℚ) < 1 := (div_lt_one hdenQ).mpr hrQ1
  split
  · next h =>
    have h2 : (2 * r : ℚ) ≤ (x.den : ℚ) := by exact_mod_cast le_of_lt h
    have : (r:ℚ) / (x.den:ℚ) ≤ 1/2 := by
      rw [div_le_div_iff hdenQ (by norm_num : (0:ℚ) < 2)]
      push_cast at h2 ⊢
      linarith
    rw [abs_le]
    constructor <;> [linarith; linarith]
  · split
    · next h =>
      have h2 : (x.den : ℚ) ≤ (2 * r : ℚ) := by exact_mod_cast le_of_lt h
      have : (1:ℚ)/2 ≤ (r:ℚ) / (x.den:ℚ) := by
        rw [div_le_div_iff (by norm_num : (0:ℚ) < 2) hdenQ]
        push_cast at h2 ⊢
        linarith
      rw [abs_le]
      push_cast
      constructor <;> [linarith; linarith]
    · next h1 h2 =>
      have htie : 2 * r = x.den := by omega
      have : (r:ℚ) / (x.den:ℚ) = 1/2 := by
        rw [div_eq_div_iff (ne_of_gt hdenQ) (by norm_num : (2:ℚ) ≠ 0)]
        have h2Q : ((2 * r : ℤ) : ℚ) = ((x.den : ℤ) : ℚ) := by exact_mod_cast htie
        push_cast at h2Q ⊢
        linarith
      split <;> (rw [abs_le]; push_cast; constructor <;> linarith)

theorem Frac.lt_val (x : Frac) (a b : ℤ) (hb : (0:ℤ) < b)
    (h : a * x.den < x.num * b) : (a:ℚ) / (b:ℚ) < x.val := by
  unfold Frac.val
  rw [div_lt_div_iff (by exact_mod_cast hb) x.denQ_pos]
  exact_mod_cast h

theorem Frac.val_lt (x : Frac) (a b : ℤ) (hb : (0:ℤ) < b)
    (h : x.num * b < a * x.den) : x.val < (a:ℚ) / (b:ℚ) := by
  unfold Frac.val
  rw [div_lt_div_iff x.denQ_pos (by exact_mod_cast hb)]
  exact_mod_cast h

theorem expUp_spec (fuel : ℕ) : ∀ num den : ℤ, 0 < den → den ≤ num →
    num < den * 2 ^ (fuel + 1) →
    den * 2 ^ expUp fuel num den ≤ num ∧
      num < den * 2 ^ (expUp fuel num den + 1) := by
  induction fuel with
  | zero =>
    intro num den _ h1 h2
    unfold expUp
    exact ⟨by simpa using h1, by simpa using h2⟩
  | succ fuel ih =>
    intro num den hden h1 h2
    unfold expUp
    split
    · next h =>
      constructor
      · simpa using h1
      · rw [pow_one]
        linarith
    · next h =>
      push_neg at h
      have hden2 : (0:ℤ) < 2 * den := by linarith
      have hfuel2 : num < 2 * den * 2 ^ (fuel + 1) := by
        have hsplit : (2:ℤ) ^ (fuel + 1 + 1) = 2 * 2 ^ (fuel + 1) := by
          rw [pow_succ]; ring
        calc num < den * 2 ^ (fuel + 1 + 1) := h2
          _ = 2 * den * 2 ^ (fuel + 1) := by rw [hsplit]; ring
      obtain ⟨ha, hb⟩ := ih num (2 * den) hden2 h hfuel2
      constructor
      · calc den * 2 ^ (expUp fuel num (2 * den) + 1)
            = 2 * den * 2 ^ expUp fuel num (2 * den) := by rw [pow_succ]; ring
          _ ≤ num := ha
      · calc num < 2 * den * 2 ^ (expUp fuel num (2 * den) + 1) := hb
          _ = den * 2 ^ (expUp fuel num (2 * den) + 1 + 1) := by
              rw [pow_succ]; ring

theorem expDown_spec (fuel : ℕ) : ∀ num den : ℤ, 0 < num → num < den →
    den ≤ num * 2 ^ (fuel + 1) →
    1 ≤ expDown fuel num den ∧
      den ≤ num * 2 ^ expDown fuel num den ∧
      num * 2 ^ (expDown fuel num den - 1) < den := by
  induction fuel with
  | zero =>
    intro num den _ h1 h2
    unfold expDown
    norm_num at h2
    refine ⟨le_refl 1, by rw [pow_one]; linarith, by simpa using h1⟩
  | succ fuel ih =>
    intro num den hnum h1 h2
    unfold expDown
    split
    · next h =>
      refine ⟨le_refl 1, by rw [pow_one]; linarith, by simpa using h1⟩
    · next h =>
      push_neg at h
      have hnum2 : (0:ℤ) < 2 * num := by linarith
      have hfuel2 : den ≤ 2 * num * 2 ^ (fuel + 1) := by
        calc den ≤ num * 2 ^ (fuel + 1 + 1) := h2
          _ = 2 * num * 2 ^ (fuel + 1) := by rw [pow_succ]; ring
      obtain ⟨hk1, ha, hb⟩ := ih (2 * num) den hnum2 h hfuel2
      refine ⟨by omega, ?_, ?_⟩
      · calc den ≤ 2 * num * 2 ^ expDown fuel (2 * num) den := ha
          _ = num * 2 ^ (expDown fuel (2 * num) den + 1) := by
              rw [pow_succ]; ring
      · have hsub : expDown fuel (2 * num) den + 1 - 1
            = (expDown fuel (2 * num) den - 1) + 1 := by omega
        rw [hsub, pow_succ]
        calc num * (2 ^ (expDown fuel (2 * num) den - 1) * 2)
            = 2 * num * 2 ^ (expDown fuel (2 * num) den - 1) := by ring
          _ < den := hb

theorem eps_pos : (0:ℚ) < eps := by norm_num [eps]

theorem eps_small : eps < 1 / 1000000 := by norm_num [eps]

theorem roundAt_bracket (x : Frac) (K : ℕ)
    (hm_lo : x.den * 2 ^ 52 ≤ x.num * 2 ^ K)
    (hm_hi : x.num * 2 ^ K < x.den * 2 ^ 53) :
    x.val * (1 - eps) ≤ (roundAt x K).val ∧
      (roundAt x K).val ≤ x.val * (1 + eps) := by
  set m : Frac := ⟨x.num * 2 ^ K, x.den, x.pos⟩ with hm
  have hKQ : (0:ℚ) < (2:ℚ) ^ K := by positivity
  have hmval : m.val = x.val * 2 ^ K := by
    rw [hm]
    unfold Frac.val
    push_cast
    ring
  have hm52 : (2:ℚ) ^ 52 ≤ m.val := by
    have h := Frac.le_val m (2 ^ 52) 1 one_pos (by
      show (2:ℤ) ^ 52 * m.den ≤ m.num * 1
      rw [hm]
      push_cast
      nlinarith [hm_lo])
    have hcast : (((2:ℤ) ^ 52 : ℤ) : ℚ) / ((1:ℤ) : ℚ) = (2:ℚ) ^ 52 := by
      push_cast
      norm_num
    rw [hcast] at h
    exact h
  have hm53 : m.val < (2:ℚ) ^ 53 := by
    have h := Frac.val_lt m (2 ^ 53) 1 one_pos (by
      show m.num * 1 < (2:ℤ) ^ 53 * m.den
      rw [hm]
      push_cast
      nlinarith [hm_hi])
    have hcast : (((2:ℤ) ^ 53 : ℤ) : ℚ) / ((1:ℤ) : ℚ) = (2:ℚ) ^ 53 := by
      push_cast
      norm_num
    rw [hcast] at h
    exact h
  have hdist := nearestEven_dist m
  have hrval : (roundAt x K).val = ((nearestEven m : ℤ) : ℚ) / 2 ^ K := by
    unfold roundAt Frac.val
    rw [hm]
    push_cast
    norm_num
  have key : |(roundAt x K).val - x.val| ≤ (1/2) / 2 ^ K := by
    rw [hrval]
    have hdiff : ((nearestEven m : ℤ) : ℚ) / 2 ^ K - x.val
        = (((nearestEven m : ℤ) : ℚ) - m.val) / 2 ^ K := by
      rw [hmval]
      field_simp
      ring
    rw [hdiff, abs_div, abs_of_pos hKQ]
    exact (div_le_div_right hKQ).mpr hdist
  have hxval : x.val = m.val / 2 ^ K := by
    rw [hmval]
    field_simp
  have hrel : (1/2) / (2:ℚ) ^ K ≤ x.val * eps := by
    rw [hxval]
    have heq : m.val / 2 ^ K * eps = m.val / (2 ^ K * 2 ^ 53) := by
      unfold eps
      rw [show (9007199254740992:ℚ) = 2 ^ 53 from by norm_num]
      rw [div_mul_div_comm, mul_one]
    have heq2 : (1/2) / (2:ℚ) ^ K = (2:ℚ) ^ 52 / (2 ^ K * 2 ^ 53) := by
      rw [div_eq_div_iff (by positivity) (by positivity)]
      rw [show (2:ℚ) ^ 53 = 2 ^ 52 * 2 from by norm_num]
      ring
    rw [heq, heq2]
    exact (div_le_div_right (by positivity)).mpr hm52
  have habs := abs_le.mp (le_trans key hrel)
  constructor
  · nlinarith [habs.1]
  · nlinarith [habs.2]

/-- The central rounding bound: for a positive value between `2^(-100)`
and `2^52`, binary64 rounding changes it by at most a relative
`eps = 2^(-53)`. -/
theorem roundNE_bracket (x : Frac) (hlo : (1:ℚ) ≤ x.val * 2 ^ 100)
    (hhi : x.val ≤ (2:ℚ) ^ 52) :
    x.val * (1 - eps) ≤ (roundNE x).val ∧
      (roundNE x).val ≤ x.val * (1 + eps) := by
  have hvalpos : 0 < x.val := by
    by_contra hv
    push_neg at hv
    have h100 : (0:ℚ) < 2 ^ 100 := by positivity
    nlinarith
  have hnum : 0 < x.num := x.num_pos_of_val_pos hvalpos
  have hloZ : x.den ≤ x.num * 2 ^ 100 := by
    have h1 : (1:ℚ) ≤ ((x.num * 2 ^ 100 : ℤ) : ℚ) / ((x.den : ℤ) : ℚ) := by
      have : x.val * 2 ^ 100 = ((x.num * 2 ^ 100 : ℤ) : ℚ) / ((x.den : ℤ) : ℚ) := by
        unfold Frac.val
        push_cast
        ring
      rw [← this]
      exact hlo
    have h2 : ((x.den : ℤ) : ℚ) ≤ ((x.num * 2 ^ 100 : ℤ) : ℚ) :=
      (one_le_div x.denQ_pos).mp h1
    exact_mod_cast h2
  have hhiZ : x.num ≤ x.den * 2 ^ 52 := by
    have h0 : (x.num : ℚ) / (x.den : ℚ) ≤ 2 ^ 52 := hhi
    have h2 : (x.num : ℚ) ≤ 2 ^ 52 * (x.den : ℚ) := (div_le_iff x.denQ_pos).mp h0
    have h3 : (x.num : ℚ) ≤ ((x.den * 2 ^ 52 : ℤ) : ℚ) := by
      push_cast
      linarith
    exact_mod_cast h3
  unfold roundNE
  rw [if_neg (not_le.mpr hnum)]
  by_cases hcase : x.den ≤ x.num
  · set L := expUp 200 x.num x.den with hL
    have hfuel : x.num < x.den * 2 ^ (200 + 1) := by
      calc x.num ≤ x.den * 2 ^ 52 := hhiZ
        _ < x.den * 2 ^ (200 + 1) := by
            apply mul_lt_mul_of_pos_left ?_ x.pos
            norm_num
    obtain ⟨hA, hB⟩ := expUp_spec 200 x.num x.den x.pos hcase hfuel
    have hqe : qExp x = (L : ℤ) := by unfold qExp; rw [if_pos hcase]
    have hL52 : L ≤ 52 := by
      by_contra hcon
      push_neg at hcon
      have h53L : (2:ℤ) ^ 53 ≤ 2 ^ L := pow_le_pow_right (by norm_num) hcon
      have hbig : x.den * 2 ^ 53 ≤ x.den * 2 ^ L :=
        mul_le_mul_of_nonneg_left h53L (le_of_lt x.pos)
      have hlt : x.den * 2 ^ 52 < x.den * 2 ^ 53 := by
        apply mul_lt_mul_of_pos_left ?_ x.pos
        norm_num
      linarith [le_trans hbig hA, hhiZ]
    have hq52 : qExp x ≤ 52 := by rw [hqe]; exact_mod_cast hL52
    rw [if_neg (not_lt.mpr hq52)]
    have hK : (52 - qExp x).toNat = 52 - L := by rw [hqe]; omega
    rw [hK]
    apply roundAt_bracket
    · have hsplit : (2:ℤ) ^ 52 = 2 ^ L * 2 ^ (52 - L) := by
        rw [← pow_add]
        congr 1
        omega
      calc x.den * 2 ^ 52 = x.den * 2 ^ L * 2 ^ (52 - L) := by rw [hsplit]; ring
        _ ≤ x.num * 2 ^ (52 - L) :=
            mul_le_mul_of_nonneg_right hA (by positivity)
    · have hsplit : (2:ℤ) ^ 53 = 2 ^ (L + 1) * 2 ^ (52 - L) := by
        rw [← pow_add]
        congr 1
        omega
      calc x.num * 2 ^ (52 - L) < x.den * 2 ^ (L + 1) * 2 ^ (52 - L) :=
            mul_lt_mul_of_pos_right hB (by positivity)
        _ = x.den * 2 ^ 53 := by rw [hsplit]; ring
  · push_neg at hcase
    set k := expDown 200 x.num x.den with hk
    have hfuel : x.den ≤ x.num * 2 ^ (200 + 1) := by
      calc x.den ≤ x.num * 2 ^ 100 := hloZ
        _ ≤ x.num * 2 ^ (200 + 1) := by
            apply mul_le_mul_of_nonneg_left ?_ (le_of_lt hnum)
            norm_num
    obtain ⟨hk1, hA, hB⟩ := expDown_spec 200 x.num x.den hnum hcase hfuel
    have hqe : qExp x = -(k : ℤ) := by
      unfold qExp
      rw [if_neg (not_le.mpr hcase)]
    have hq52 : qExp x ≤ 52 := by rw [hqe]; omega
    rw [if_neg (not_lt.mpr hq52)]
    have hK : (52 - qExp x).toNat = 52 + k := by rw [hqe]; omega
    rw [hK]
    apply roundAt_bracket
    · have hsplit : (2:ℤ) ^ (52 + k) = 2 ^ k * 2 ^ 52 := by
        rw [← pow_add]
        congr 1
        omega
      calc x.den * 2 ^ 52 ≤ x.num * 2 ^ k * 2 ^ 52 :=
            mul_le_mul_of_nonneg_right hA (by positivity)
        _ = x.num * 2 ^ (52 + k) := by rw [hsplit]; ring
    · have hsplit : (2:ℤ) ^ (52 + k) = 2 ^ (k - 1) * 2 ^ 53 := by
        rw [← pow_add]
        congr 1
        omega
      calc x.num * 2 ^ (52 + k) = x.num * 2 ^ (k - 1) * 2 ^ 53 := by
            rw [hsplit]; ring
        _ < x.den * 2 ^ 53 := mul_lt_mul_of_pos_right hB (by positivity)

set_option maxHeartbeats 2000000 in
/-- The binary64 value of `99.9` lies in `[999/10, 9991/100]`. -/
theorem c999_bounds : (999:ℚ)/10 ≤ c999.val ∧ c999.val ≤ (9991:ℚ)/100 :=
  ⟨Frac.le_val c999 999 10 (by norm_num) (by decide),
   Frac.val_le c999 9991 100 (by norm_num) (by decide)⟩

set_option maxHeartbeats 2000000 in
/-- The binary64 value of `99.99` lies in `[9998/100, 9999/100]`. -/
theorem c9999_bounds : (9998:ℚ)/100 ≤ c9999.val ∧ c9999.val ≤ (9999:ℚ)/100 :=
  ⟨Frac.le_val c9999 9998 100 (by norm_num) (by decide),
   Frac.val_le c9999 9999 100 (by norm_num) (by decide)⟩

set_option maxHeartbeats 2000000 in
/-- Exact enclosure of the float-derived percentile index: for
`2 ≤ n ≤ 43383508` and a constant `c` with value in `[99, 100]`, the
index is the floor of a value within relative `3·eps` / `4·eps` of
`n·c/100 - 1`. -/
theorem floatVal_bounds (c : Frac) (n : ℕ) (h2 : 2 ≤ n) (hB : n ≤ 43383508)
    (hc_lo : (99:ℚ) ≤ c.val) (hc_hi : c.val ≤ 100) :
    ∃ q : ℚ, (floatIdx c n : ℤ) = ⌊q⌋ ∧
      ((n:ℚ) * c.val / 100) * (1 - 3*eps) - 1 ≤ q ∧
      q ≤ ((n:ℚ) * c.val / 100) * (1 + 4*eps) - 1 := by
  have hn2 : (2:ℚ) ≤ (n:ℚ) := by exact_mod_cast h2
  have hnB : (n:ℚ) ≤ 43383508 := by exact_mod_cast hB
  have he0 : (0:ℚ) < eps := eps_pos
  have he1 : eps < 1/1000000 := eps_small
  have hnclo : 198 ≤ (n:ℚ) * c.val := by nlinarith
  have hnchi : (n:ℚ) * c.val ≤ 4338350800 := by nlinarith
  have hp100 : (1:ℚ) ≤ 2 ^ 100 := by norm_num
  have hp52 : (4400000000:ℚ) ≤ 2 ^ 52 := by norm_num
  -- stage 1
  have hA1 := roundNE_bracket (Frac.mulNat n c)
    (by rw [Frac.val_mulNat]; nlinarith)
    (by rw [Frac.val_mulNat]; nlinarith)
  rw [Frac.val_mulNat] at hA1
  have hA1lo : (n:ℚ) * c.val * (1 - eps) ≤ (fl1 c n).val := hA1.1
  have hA1hi : (fl1 c n).val ≤ (n:ℚ) * c.val * (1 + eps) := hA1.2
  have hv1lo : 197 ≤ (fl1 c n).val := by nlinarith
  have hv1hi : (fl1 c n).val ≤ 4340000000 := by nlinarith
  -- stage 2
  have hA2 := roundNE_bracket (Frac.div100 (fl1 c n))
    (by rw [Frac.val_div100]; nlinarith)
    (by rw [Frac.val_div100]; nlinarith)
  rw [Frac.val_div100] at hA2
  have hA2lo : (fl1 c n).val / 100 * (1 - eps) ≤ (fl2 c n).val := hA2.1
  have hA2hi : (fl2 c n).val ≤ (fl1 c n).val / 100 * (1 + eps) := hA2.2
  have hv2lo : 19/10 ≤ (fl2 c n).val := by nlinarith
  have hv2hi : (fl2 c n).val ≤ 43400001 := by nlinarith
  -- stage 3
  have hA3 := roundNE_bracket (Frac.sub1 (fl2 c n))
    (by rw [Frac.val_sub1]; nlinarith)
    (by rw [Frac.val_sub1]; nlinarith)
  rw [Frac.val_sub1] at hA3
  have hA3lo : ((fl2 c n).val - 1) * (1 - eps) ≤ (fl3 c n).val := hA3.1
  have hA3hi : (fl3 c n).val ≤ ((fl2 c n).val - 1) * (1 + eps) := hA3.2
  have hv3pos : (0:ℚ) < (fl3 c n).val := by nlinarith
  -- the floor expression
  refine ⟨(fl3 c n).val, ?_, ?_, ?_⟩
  · show ((Frac.floorQ (fl3 c n)).toNat : ℤ) = ⌊(fl3 c n).val⌋
    rw [Frac.floorQ_eq]
    exact Int.toNat_of_nonneg (Int.floor_nonneg.mpr (le_of_lt hv3pos))
  · -- lower bound
    have hW0 : (0:ℚ) ≤ (n:ℚ) * c.val / 100 := by nlinarith
    have hcube : 1 - 3*eps ≤ (1 - eps) * (1 - eps) * (1 - eps) := by
      nlinarith [mul_nonneg (mul_nonneg he0.le he0.le)
        (show (0:ℚ) ≤ 3 - eps by linarith)]
    have he1' : (0:ℚ) ≤ 1 - eps := by linarith
    have hW1 : (n:ℚ) * c.val / 100 * (1 - eps) ≤ (fl1 c n).val / 100 := by
      linarith
    have s1 : (n:ℚ) * c.val / 100 * (1 - eps) * (1 - eps) ≤ (fl2 c n).val :=
      le_trans (mul_le_mul_of_nonneg_right hW1 he1') hA2lo
    have s3 : (n:ℚ) * c.val / 100 * (1 - eps) * (1 - eps) - 1
        ≤ (fl2 c n).val - 1 := by linarith
    have s5 : ((n:ℚ) * c.val / 100 * (1 - eps) * (1 - eps) - 1) * (1 - eps)
        ≤ (fl3 c n).val :=
      le_trans (mul_le_mul_of_nonneg_right s3 he1') hA3lo
    nlinarith [mul_le_mul_of_nonneg_left hcube hW0, s5]
  · -- upper bound
    have hW0 : (0:ℚ) ≤ (n:ℚ) * c.val / 100 := by nlinarith
    have hcube2 : (1 + eps) * (1 + eps) * (1 + eps) ≤ 1 + 4*eps := by
      have hsq : eps * eps < eps * (1/1000000) := mul_lt_mul_of_pos_left he1 he0
      nlinarith [hsq, he0, he1]
    have he1' : (0:ℚ) ≤ 1 + eps := by linarith
    have hW2 : (fl1 c n).val / 100 ≤ (n:ℚ) * c.val / 100 * (1 + eps) := by
      linarith
    have s2 : (fl2 c n).val ≤ (n:ℚ) * c.val / 100 * (1 + eps) * (1 + eps) :=
      le_trans hA2hi (mul_le_mul_of_nonneg_right hW2 he1')
    have s4 : (fl2 c n).val - 1
        ≤ (n:ℚ) * c.val / 100 * (1 + eps) * (1 + eps) - 1 := by linarith
    have s6 : (fl3 c n).val
        ≤ ((n:ℚ) * c.val / 100 * (1 + eps) * (1 + eps) - 1) * (1 + eps) :=
      le_trans hA3hi (mul_le_mul_of_nonneg_right s4 he1')
    nlinarith [mul_le_mul_of_nonneg_left hcube2 hW0, s6]

theorem eps_tiny : eps < 1 / 1000000000000 := by norm_num [eps]

/-- The float-derived index never exceeds `n - 1`. -/
theorem floatIdx_le (c : Frac) (n : ℕ) (h2 : 2 ≤ n) (hB : n ≤ 43383508)
    (hc_lo : (99:ℚ) ≤ c.val) (hc_hi : c.val ≤ 100) :
    floatIdx c n ≤ n - 1 := by
  obtain ⟨q, hq, _, hqu⟩ := floatVal_bounds c n h2 hB hc_lo hc_hi
  have he0 := eps_pos
  have hn2 : (2:ℚ) ≤ (n:ℚ) := by exact_mod_cast h2
  have hnB : (n:ℚ) ≤ 43383508 := by exact_mod_cast hB
  have hneps : (n:ℚ) * eps < 1/10000 := by
    have h1 : (n:ℚ) * eps ≤ 43383508 * eps :=
      mul_le_mul_of_nonneg_right hnB he0.le
    have h2' : (43383508:ℚ) * eps < 43383508 * (1/1000000000000) :=
      mul_lt_mul_of_pos_left eps_tiny (by norm_num)
    have h3 : (43383508:ℚ) * (1/1000000000000) < 1/10000 := by norm_num
    linarith
  have hqlt : q < (n:ℚ) := by
    have hWn : (n:ℚ) * c.val / 100 ≤ (n:ℚ) := by nlinarith
    have hW0 : (0:ℚ) ≤ (n:ℚ) * c.val / 100 := by nlinarith
    nlinarith [hqu, mul_le_mul_of_nonneg_right hWn (by linarith : (0:ℚ) ≤ 4*eps)]
  have hfl : ⌊q⌋ < (n:ℤ) := Int.floor_lt.mpr (by push_cast; linarith)
  omega

/-- The integer p99 index is a lower bound on the float p999 index. -/
theorem le_idxF999 (n : ℕ) (h2 : 2 ≤ n) (hB : n ≤ 43383508) :
    n * 99 / 100 - 1 ≤ idxF999 n := by
  have hc := c999_bounds
  obtain ⟨q, hq, hql, _⟩ := floatVal_bounds c999 n h2 hB
    (by linarith [hc.1]) (by linarith [hc.2])
  have he0 := eps_pos
  have het := eps_tiny
  have hn2 : (2:ℚ) ≤ (n:ℚ) := by exact_mod_cast h2
  have hn0 : (0:ℚ) ≤ (n:ℚ) := by positivity
  have hkQ : ((n * 99 / 100 : ℕ) : ℚ) ≤ (n:ℚ) * 99 / 100 := by
    have h : ((n * 99 / 100 : ℕ) : ℚ) ≤ ((n * 99 : ℕ) : ℚ) / ((100 : ℕ) : ℚ) :=
      Nat.cast_div_le
    push_cast at h
    linarith
  have hq_ge : ((n * 99 / 100 : ℕ) : ℤ) - 1 ≤ ⌊q⌋ := by
    apply Int.le_floor.mpr
    rw [Int.cast_sub, Int.cast_natCast, Int.cast_one]
    have hne : (n:ℚ) * eps ≤ (n:ℚ) * (1/1000000000000) :=
      mul_le_mul_of_nonneg_left het.le hn0
    have hc1 : (n:ℚ) * (999/10) / 100 ≤ (n:ℚ) * c999.val / 100 := by
      nlinarith [mul_le_mul_of_nonneg_left hc.1 hn0]
    have hstep : (n:ℚ) * 99 / 100 ≤ ((n:ℚ) * (999/10) / 100) * (1 - 3*eps) := by
      nlinarith [hne, hn2, he0]
    have hmono : ((n:ℚ) * (999/10) / 100) * (1 - 3*eps)
        ≤ ((n:ℚ) * c999.val / 100) * (1 - 3*eps) := by
      apply mul_le_mul_of_nonneg_right hc1
      nlinarith [he0, het]
    linarith [hql, hkQ]
  show n * 99 / 100 - 1 ≤ floatIdx c999 n
  omega

/-- The float p999 index never exceeds the float p9999 index. -/
theorem idxF999_le_idxF9999 (n : ℕ) (h2 : 2 ≤ n) (hB : n ≤ 43383508) :
    idxF999 n ≤ idxF9999 n := by
  have hc1 := c999_bounds
  have hc2 := c9999_bounds
  obtain ⟨q1, hq1, _, hq1u⟩ := floatVal_bounds c999 n h2 hB
    (by linarith [hc1.1]) (by linarith [hc1.2])
  obtain ⟨q2, hq2, hq2l, _⟩ := floatVal_bounds c9999 n h2 hB
    (by linarith [hc2.1]) (by linarith [hc2.2])
  have he0 := eps_pos
  have het := eps_tiny
  have hn0 : (0:ℚ) ≤ (n:ℚ) := by positivity
  have hn2 : (2:ℚ) ≤ (n:ℚ) := by exact_mod_cast h2
  have hne : (n:ℚ) * eps ≤ (n:ℚ) * (1/1000000000000) :=
    mul_le_mul_of_nonneg_left het.le hn0
  have key : q1 ≤ q2 := by
    have hup : (n:ℚ) * c999.val / 100 ≤ (n:ℚ) * (9991/100) / 100 := by
      nlinarith [mul_le_mul_of_nonneg_left hc1.2 hn0]
    have hdown : (n:ℚ) * (9998/100) / 100 ≤ (n:ℚ) * c9999.val / 100 := by
      nlinarith [mul_le_mul_of_nonneg_left hc2.1 hn0]
    have hmid : ((n:ℚ) * (9991/100) / 100) * (1 + 4*eps)
        ≤ ((n:ℚ) * (9998/100) / 100) * (1 - 3*eps) := by
      nlinarith [hne, hn2, he0]
    have h1 : q1 ≤ ((n:ℚ) * (9991/100) / 100) * (1 + 4*eps) - 1 := by
      have := mul_le_mul_of_nonneg_right hup
        (by linarith : (0:ℚ) ≤ 1 + 4*eps)
      linarith [hq1u]
    have h2' : ((n:ℚ) * (9998/100) / 100) * (1 - 3*eps) - 1 ≤ q2 := by
      have := mul_le_mul_of_nonneg_right hdown
        (by nlinarith [he0, het] : (0:ℚ) ≤ 1 - 3*eps)
      linarith [hq2l]
    linarith
  have hfl : ⌊q1⌋ ≤ ⌊q2⌋ := Int.floor_le_floor key
  show floatIdx c999 n ≤ floatIdx c9999 n
  omega

/-! ### Integer index arithmetic (no `uint32` overflow range) -/

theorem u32sub1_eq (x : ℕ) (h1 : 1 ≤ x) (h2 : x < 4294967296) :
    u32sub1 x = x - 1 := by
  unfold u32sub1 u32Mod
  omega

theorem idxInt_eq (n p : ℕ) (h100 : 100 ≤ n * p) (hw : n * p < 4294967296) :
    idxInt n p = n * p / 100 - 1 := by
  unfold idxInt u32sub1 u32Mod
  generalize n * p = m at h100 hw ⊢
  omega

/-- In the no-overflow range the integer percentile indices are
monotone in the percentile rank and bounded by `n - 1`, and the float
indices extend the chain up to `n - 1`. -/
theorem idxChain (n : ℕ) (h2 : 2 ≤ n) (hB : n ≤ 43383508) :
    idxInt n 50 ≤ idxInt n 90 ∧ idxInt n 90 ≤ idxInt n 95 ∧
    idxInt n 95 ≤ idxInt n 99 ∧ idxInt n 99 ≤ idxF999 n ∧
    idxF999 n ≤ idxF9999 n ∧ idxF9999 n ≤ n - 1 ∧ u32sub1 n = n - 1 := by
  have hw50 : n * 50 < 4294967296 := by omega
  have hw90 : n * 90 < 4294967296 := by omega
  have hw95 : n * 95 < 4294967296 := by omega
  have hw99 : n * 99 < 4294967296 := by omega
  have h50 : 100 ≤ n * 50 := by omega
  have h90 : 100 ≤ n * 90 := by omega
  have h95 : 100 ≤ n * 95 := by omega
  have h99 : 100 ≤ n * 99 := by omega
  rw [idxInt_eq n 50 h50 hw50, idxInt_eq n 90 h90 hw90,
    idxInt_eq n 95 h95 hw95, idxInt_eq n 99 h99 hw99]
  have hc999 := c999_bounds
  have hc9999 := c9999_bounds
  refine ⟨?_, ?_, ?_, ?_, ?_, ?_, ?_⟩
  · have : n * 50 / 100 ≤ n * 90 / 100 := Nat.div_le_div_right (by omega)
    omega
  · have : n * 90 / 100 ≤ n * 95 / 100 := Nat.div_le_div_right (by omega)
    omega
  · have : n * 95 / 100 ≤ n * 99 / 100 := Nat.div_le_div_right (by omega)
    omega
  · exact le_idxF999 n h2 hB
  · exact idxF999_le_idxF9999 n h2 hB
  · exact floatIdx_le c9999 n h2 hB (by linarith [hc9999.1]) (by linarith [hc9999.2])
  · exact u32sub1_eq n (by omega) (by omega)

/-! ### Sorted access -/

theorem sorted_getD_mono (l : List ℤ) (hs : List.Sorted (· ≤ ·) l)
    (i j : ℕ) (hij : i ≤ j) (hj : j < l.length) :
    l.getD i 0 ≤ l.getD j 0 := by
  rcases Nat.eq_or_lt_of_le hij with h | h
  · subst h
    exact le_refl _
  · have hi : i < l.length := lt_trans h hj
    rw [List.getD_eq_getElem l 0 hi, List.getD_eq_getElem l 0 hj]
    have hrel := @List.Sorted.rel_get_of_lt _ _ _ hs ⟨i, hi⟩ ⟨j, hj⟩
      (Fin.mk_lt_mk.mpr h)
    simpa using hrel

/-! ### Projections of the latency batch computation -/

theorem latency_min_eq (rtt : ℕ) (samples : List ℤ) :
    (srvrRunTCPLatencyTest rtt samples).min
      = (List.insertionSort (· ≤ ·) samples).getD 0 0 := rfl

theorem latency_max_eq (rtt : ℕ) (samples : List ℤ) :
    (srvrRunTCPLatencyTest rtt samples).max
      = (List.insertionSort (· ≤ ·) samples).getD (u32sub1 rtt) 0 := rfl

theorem latency_p50_eq (rtt : ℕ) (samples : List ℤ) :
    (srvrRunTCPLatencyTest rtt samples).p50
      = (List.insertionSort (· ≤ ·) samples).getD (idxInt (nFixed rtt) 50) 0 := rfl

theorem latency_p90_eq (rtt : ℕ) (samples : List ℤ) :
    (srvrRunTCPLatencyTest rtt samples).p90
      = (List.insertionSort (· ≤ ·) samples).getD (idxInt (nFixed rtt) 90) 0 := rfl

theorem latency_p95_eq (rtt : ℕ) (samples : List ℤ) :
    (srvrRunTCPLatencyTest rtt samples).p95
      = (List.insertionSort (· ≤ ·) samples).getD (idxInt (nFixed rtt) 95) 0 := rfl

theorem latency_p99_eq (rtt : ℕ) (samples : List ℤ) :
    (srvrRunTCPLatencyTest rtt samples).p99
      = (List.insertionSort (· ≤ ·) samples).getD (idxInt (nFixed rtt) 99) 0 := rfl

theorem latency_p999_eq (rtt : ℕ) (samples : List ℤ) :
    (srvrRunTCPLatencyTest rtt samples).p999
      = (List.insertionSort (· ≤ ·) samples).getD (idxF999 (nFixed rtt)) 0 := rfl

theorem latency_p9999_eq (rtt : ℕ) (samples : List ℤ) :
    (srvrRunTCPLatencyTest rtt samples).p9999
      = (List.insertionSort (· ≤ ·) samples).getD (idxF9999 (nFixed rtt)) 0 := rfl

/-! ### C6 -/

/-- Claim C6 counterexample: at `rttCount = 45210200` (within `uint32`
but with `45210200*95` overflowing) with samples `0,1,2,...` ns, the
`uint32` index arithmetic wraps: the p95 index (16) drops below the p90
index (40689179), so the emitted percentiles violate `p90 ≤ p95` and
the claimed chain fails. -/
theorem c6_counterexample :
    ¬ latencyChain 45210200 ((List.range 45210200).map Int.ofNat) := by
  intro h
  unfold latencyChain at h
  obtain ⟨_, _, h3, _⟩ := h
  have hpair : (List.range 45210200).Pairwise
      (fun a b => Int.ofNat a ≤ Int.ofNat b) :=
    (List.pairwise_lt_range 45210200).imp
      (fun hab => Int.ofNat_le.mpr (Nat.le_of_lt hab))
  have hsorted : List.Sorted (· ≤ ·) ((List.range 45210200).map Int.ofNat) :=
    List.pairwise_map.mpr hpair
  have hins : List.insertionSort (· ≤ ·) ((List.range 45210200).map Int.ofNat)
      = (List.range 45210200).map Int.ofNat :=
    List.Sorted.insertionSort_eq hsorted
  have hgetD : ∀ i : ℕ, i < 45210200 →
      ((List.range 45210200).map Int.ofNat).getD i 0 = Int.ofNat i := by
    intro i hi
    rw [List.getD_eq_getElem?_getD, List.getElem?_map, List.getElem?_range hi]
    rfl
  have e90 : idxInt (nFixed 45210200) 90 = 40689179 := by decide
  have e95 : idxInt (nFixed 45210200) 95 = 16 := by decide
  rw [latency_p90_eq, latency_p95_eq, hins, e90, e95,
    hgetD 40689179 (by norm_num), hgetD 16 (by norm_num)] at h3
  norm_num at h3

/-- Claim C6 as amended: for every completed latency batch with
`1 ≤ rttCount ≤ 43383508` (the range in which no `uint32` index
arithmetic overflows), the reported percentiles satisfy
`min ≤ p50 ≤ p90 ≤ p95 ≤ p99 ≤ p999 ≤ p9999 ≤ max`: the samples are
sorted ascending and the indices — including the exactly-modelled
binary64 p999/p9999 indices — are non-decreasing in the percentile
rank and bounded by `rttCount - 1`. -/
theorem c6_percentile_chain (rtt : ℕ) (samples : List ℤ) (h1 : 1 ≤ rtt)
    (hB : rtt ≤ 43383508) (hlen : samples.length = rtt) :
    latencyChain rtt samples := by
  have hsorted : List.Sorted (· ≤ ·) (List.insertionSort (· ≤ ·) samples) :=
    List.sorted_insertionSort (· ≤ ·) samples
  have hslen : (List.insertionSort (· ≤ ·) samples).length = rtt := by
    rw [List.length_insertionSort]
    exact hlen
  unfold latencyChain
  rw [latency_min_eq, latency_max_eq, latency_p50_eq, latency_p90_eq,
    latency_p95_eq, latency_p99_eq, latency_p999_eq, latency_p9999_eq]
  by_cases hone : rtt = 1
  · subst hone
    have e50 : idxInt (nFixed 1) 50 = 0 := by decide
    have e90 : idxInt (nFixed 1) 90 = 0 := by decide
    have e95 : idxInt (nFixed 1) 95 = 0 := by decide
    have e99 : idxInt (nFixed 1) 99 = 0 := by decide
    have e999 : idxF999 (nFixed 1) = 0 := by decide
    have e9999 : idxF9999 (nFixed 1) = 0 := by decide
    have emax : u32sub1 1 = 0 := by decide
    rw [e50, e90, e95, e99, e999, e9999, emax]
    exact ⟨le_refl _, le_refl _, le_refl _, le_refl _, le_refl _,
      le_refl _, le_refl _⟩
  · have h2 : 2 ≤ rtt := by omega
    have hnf : nFixed rtt = rtt := by unfold nFixed; rw [if_neg hone]
    rw [hnf]
    obtain ⟨i1, i2, i3, i4, i5, i6, i7⟩ := idxChain rtt h2 hB
    rw [i7]
    refine ⟨?_, ?_, ?_, ?_, ?_, ?_, ?_⟩
    · exact sorted_getD_mono _ hsorted 0 (idxInt rtt 50) (Nat.zero_le _)
        (by rw [hslen]; omega)
    · exact sorted_getD_mono _ hsorted (idxInt rtt 50) (idxInt rtt 90) i1
        (by rw [hslen]; omega)
    · exact sorted_getD_mono _ hsorted (idxInt rtt 90) (idxInt rtt 95) i2
        (by rw [hslen]; omega)
    · exact sorted_getD_mono _ hsorted (idxInt rtt 95) (idxInt rtt 99) i3
        (by rw [hslen]; omega)
    · exact sorted_getD_mono _ hsorted (idxInt rtt 99) (idxF999 rtt) i4
        (by rw [hslen]; omega)
    · exact sorted_getD_mono _ hsorted (idxF999 rtt) (idxF9999 rtt) i5
        (by rw [hslen]; omega)
    · exact sorted_getD_mono _ hsorted (idxF9999 rtt) (rtt - 1) i6
        (by rw [hslen]; omega)

/-- Witness for the amended C6 at the concrete `rttCount = 5` batch. -/
theorem c6_percentile_chain_witness :
    latencyChain 5 [9000000, 1000000, 5000000, 3000000, 7000000] :=
  c6_percentile_chain 5 [9000000, 1000000, 5000000, 3000000, 7000000]
    (by norm_num) (by norm_num) rfl

/-! ### C10 -/

/-- Claim C10 counterexample: at `rttCount = 85899346` (≥ 1, within
`uint32`), the `uint32` product `85899346*50` wraps and the p50 index
becomes `4294967295`, far outside `[0, rttCount-1]` (an out-of-range
slice index, i.e. a runtime panic in Go): the claim's universal bound
over all `rttCount ≥ 1` is false. -/
theorem c10_counterexample :
    ¬ (latencyIndexOK 85899346 ∧ ((85899346 : ℤ) ≠ 0)) := by
  intro h
  obtain ⟨⟨_, h50, _⟩, _⟩ := h
  exact absurd h50 (by decide)

/-- Claim C10 as amended: for every `rttCount` with
`1 ≤ rttCount ≤ 43383508` (so that no `uint32` index arithmetic
overflows), every sample-array index used by the latency computation —
min, max, the four integer percentile indices and the two float-derived
indices — lies within `[0, rttCount-1]`, and the average's divisor
`int64(rttCount)` is nonzero. -/
theorem c10_index_bounds (rtt : ℕ) (h1 : 1 ≤ rtt) (hB : rtt ≤ 43383508) :
    latencyIndexOK rtt ∧ ((rtt : ℤ) ≠ 0) := by
  constructor
  · unfold latencyIndexOK
    by_cases hone : rtt = 1
    · subst hone
      exact ⟨by decide, by decide, by decide, by decide, by decide,
        by decide, by decide⟩
    · have h2 : 2 ≤ rtt := by omega
      have hnf : nFixed rtt = rtt := by unfold nFixed; rw [if_neg hone]
      rw [hnf]
      obtain ⟨i1, i2, i3, i4, i5, i6, i7⟩ := idxChain rtt h2 hB
      exact ⟨by omega, by omega, by omega, by omega, by omega, by omega,
        by omega⟩
  · omega

/-- Witness for the amended C10 at `rttCount = 5`. -/
theorem c10_index_bounds_witness :
    latencyIndexOK 5 ∧ ((5 : ℤ) ≠ 0) :=
  c10_index_bounds 5 (by norm_num) (by norm_num)

end Ethr
